import Mathlib

/-
  Verification of the TarStreamExtractor streaming TAR parser
  (src/src/tarStreamExtractor.c, src/src/tarStreamExtractor.h).

  The C code is shallowly embedded: bytes are `Nat` (each value < 256 in
  real executions, since the C type is `uint8_t`), byte buffers are
  `List Nat`, the engine struct `tarStrEx_t` is the structure `TarState`,
  and the four callbacks are modelled by a single pure function
  `Callbacks : List Event → Event → Int` that maps the history of callback
  invocations so far and the new invocation to the `int` result the C
  callback returns.  Every callback invocation is recorded as an `Event`
  in a trace, so "sequence of callback invocations" is a `List Event`.
-/

set_option maxRecDepth 200000

namespace TarSpec

/-- Field offset of `checksum` inside `tar_header_t` (bytes 0‥99 name,
100‥107 mode, 108‥115 owner, 116‥123 group, 124‥135 size, 136‥147 mtime,
148‥155 checksum, 156 type, 157‥256 linkname, padding to 512). -/
def checksumOff : Nat := 148

/-- Field offset of `type` inside `tar_header_t`. -/
def typeOff : Nat := 156

/-- Field offset of `size` inside `tar_header_t`. -/
def sizeOff : Nat := 124

/-- `isspace` of the C locale, on a byte value. -/
def isSpaceC (c : Nat) : Bool := c == 32 || (9 ≤ c && c ≤ 13)

/-- octal digit test: ASCII characters between 0 and 7. -/
def isOctDigit (c : Nat) : Bool := 48 ≤ c && c ≤ 55

/-- Digit-accumulation loop of `strtoul(_, NULL, 8)`: consume octal ASCII
digits, stopping at the first non-digit, clamping at `ULONG_MAX` on
overflow (64-bit `unsigned long`). -/
def octAccum : List Nat → Nat → Nat
  | [], acc => acc
  | c :: cs, acc =>
    if isOctDigit c then octAccum cs (min (acc * 8 + (c - 48)) (2 ^ 64 - 1)) else acc

/-- `strtoul(s, NULL, 8)` on a byte string: skip leading whitespace, accept
an optional sign ('+' = 43, '-' = 45; a '-' negates in `unsigned long`
arithmetic), then accumulate octal digits. -/
def strtoul8 (s : List Nat) : Nat :=
  match s.dropWhile (fun c => isSpaceC c) with
  | 43 :: cs => octAccum cs 0
  | 45 :: cs => (2 ^ 64 - octAccum cs 0) % 2 ^ 64
  | cs => octAccum cs 0

/-- `checksum(rh)` of tarStreamExtractor.c (lines 132-146): a `uint32_t`
accumulator starting from 256 that sums every byte before the checksum
field and every byte from the type field on. -/
def checksum (b : List Nat) : Nat :=
  (256 + (b.take checksumOff).sum + (b.drop typeOff).sum) % 2 ^ 32

/-- `tarStrEx_header_t`: the decoded header.  `name` holds the bytes the
C `strcpy` copies (all bytes before the first NUL, read from the start of
the raw block onward); `size` and `type` are the parsed size and the raw
type byte. -/
structure Header where
  name : List Nat
  size : Nat
  type : Nat
deriving DecidableEq

/-- Result of `raw_to_header`: `TARSTEX_ENULLRECORD`, `TARSTEX_EBADCHKSUM`
or `TARSTEX_ESUCCESS` with the populated header. -/
inductive DecodeResult where
  | nullRecord
  | badChecksum
  | ok (h : Header)
deriving DecidableEq

/-- The bytes written by `strcpy(h->name, rh->name)`: `rh->name` is at
offset 0 of the raw block and `strcpy` keeps reading consecutive bytes of
the block until it meets a NUL, with no regard for the 100-byte field
boundary. -/
def strcpyName (b : List Nat) : List Nat := b.takeWhile (fun c => c ≠ 0)

/-- `raw_to_header` (lines 156-181): classify a 512-byte raw block.  The
`uint32_t` conversions of the `strtoul` results are the `% 2 ^ 32`. -/
def raw_to_header (b : List Nat) : DecodeResult :=
  if b.getD checksumOff 0 = 0 then .nullRecord
  else
    let chksum1 := checksum b
    let chksum2 := strtoul8 (b.drop checksumOff) % 2 ^ 32
    if chksum1 ≠ chksum2 then .badChecksum
    else .ok { size := strtoul8 (b.drop sizeOff) % 2 ^ 32,
               type := b.getD typeOff 0,
               name := strcpyName b }

/-- `tarStatus_t`. -/
inductive TarStatus where
  | tar_header
  | tar_fileData
  | tar_filePad
  | tar_error
deriving DecidableEq

/-- `struct tarStrEx_t` without the callback pointers (those are passed
separately as the pure `Callbacks` function).  `blockBuff` models the
filled prefix of the C 512-byte array: the C code only ever reads the
first `buffIdx` bytes of the array (`raw_to_header` reads 512 bytes
exactly when `remaining_buffBytes = 0`, i.e. `buffIdx = 512`, and the
`recvData` lengths never exceed `buffIdx`), so the stale suffix of the C
array is not observable. -/
structure TarState where
  blockBuff : List Nat
  buffIdx : Nat
  remaining_buffBytes : Nat
  remaining_filedata : Nat
  status : TarStatus
  hdr : Header
deriving DecidableEq

/-- One callback invocation, with its arguments. -/
inductive Event where
  | evFileInit (name : List Nat)
  | evDirCreate (name : List Nat)
  | evRecvData (bytes : List Nat)
  | evFileFinalize
deriving DecidableEq

/-- The four callbacks, folded into one deterministic function from the
trace of earlier invocations and the new invocation to the returned
`int`. -/
abbrev Callbacks := List Event → Event → Int

/-- `tarStrEx_init` (lines 183-198): bind callbacks (kept external here)
and reset counters and state.  The C code leaves `hdr` uninitialized, so
the initial header value `h0` is an arbitrary parameter. -/
def tarStrEx_init (h0 : Header) : TarState :=
  { blockBuff := [], buffIdx := 0, remaining_buffBytes := 512,
    remaining_filedata := 0, status := .tar_header, hdr := h0 }

/-- Result of one iteration of the `while` loop of
`tarStrEx_process_data`: either the loop continues (`cont`) or the
function returns early (`ret`) with a return code. -/
inductive StepRes where
  | cont (st : TarState) (tr : List Event)
  | ret (st : TarState) (tr : List Event) (code : Int)
deriving DecidableEq

/-- One iteration of the `while (dataSz > 0)` loop of
`tarStrEx_process_data` (lines 243-366), entered with `st.status ≠
tar_error` and `chunk = data.take (min dataSz remaining_buffBytes)`:
`memcpy` the chunk into the block buffer, update the cursors, then act on
the current state. -/
def iterOnce (cbs : Callbacks) (st : TarState) (tr : List Event) (chunk : List Nat) :
    StepRes :=
  let chunkSz := chunk.length
  let st1 : TarState :=
    { st with blockBuff := st.blockBuff ++ chunk,
              buffIdx := st.buffIdx + chunkSz,
              remaining_buffBytes := st.remaining_buffBytes - chunkSz }
  match st.status with
  | .tar_header =>
    if st1.remaining_buffBytes = 0 then
      match raw_to_header st1.blockBuff with
      | .nullRecord =>
        .cont { st1 with blockBuff := [], buffIdx := 0, remaining_buffBytes := 512 } tr
      | .badChecksum => .ret { st1 with status := .tar_error } tr (-2)
      | .ok h =>
        let st2 := { st1 with hdr := h }
        if h.type = 48 then
          let e := Event.evFileInit h.name
          if cbs tr e ≠ 0 then
            .ret { st2 with status := .tar_error } (tr ++ [e]) (-1)
          else
            .cont { st2 with status := .tar_fileData, remaining_filedata := h.size,
                             blockBuff := [], buffIdx := 0, remaining_buffBytes := 512 }
              (tr ++ [e])
        else if h.type = 53 then
          let e := Event.evDirCreate h.name
          if cbs tr e ≠ 0 then
            .ret { st2 with status := .tar_error } (tr ++ [e]) (-1)
          else
            .cont { st2 with blockBuff := [], buffIdx := 0, remaining_buffBytes := 512 }
              (tr ++ [e])
        else .ret { st2 with status := .tar_error } tr (-1)
    else .cont st1 tr
  | .tar_fileData =>
    let fileChunk := min st.remaining_filedata chunkSz
    let st2 := { st1 with remaining_filedata := st.remaining_filedata - fileChunk }
    if st2.remaining_filedata = 0 then
      let e1 := Event.evRecvData (st2.blockBuff.take (st2.buffIdx - (chunkSz - fileChunk)))
      let r := cbs tr e1
      let tr2 := tr ++ [e1] ++ [Event.evFileFinalize]
      if r ≠ 0 then .ret { st2 with status := .tar_error } tr2 (-1)
      else if st2.remaining_buffBytes = 0 then
        .cont { st2 with blockBuff := [], buffIdx := 0, remaining_buffBytes := 512,
                         status := .tar_header } tr2
      else .cont { st2 with status := .tar_filePad } tr2
    else if st2.remaining_buffBytes = 0 then
      let e1 := Event.evRecvData st2.blockBuff
      if cbs tr e1 ≠ 0 then .ret { st2 with status := .tar_error } (tr ++ [e1]) (-1)
      else
        .cont { st2 with blockBuff := [], buffIdx := 0, remaining_buffBytes := 512 }
          (tr ++ [e1])
    else .cont st2 tr
  | .tar_filePad =>
    if st1.remaining_buffBytes = 0 then
      .cont { st1 with blockBuff := [], buffIdx := 0, remaining_buffBytes := 512,
                       status := .tar_header } tr
    else .cont st1 tr
  | .tar_error => .cont st1 tr

/-- Fuel-indexed body of `tarStrEx_process_data`.  Each executed loop
iteration copies `min dataSz remaining_buffBytes ≥ 1` bytes whenever
`remaining_buffBytes ≥ 1` (an invariant of every reachable non-error
state), so `fuel = dataSz` iterations always suffice; the two `fuel = 0`
and `chunkSz = 0` fall-throughs are unreachable from initialized engines
(in C the `chunkSz = 0` situation would loop forever). -/
def processAux (cbs : Callbacks) : Nat → TarState → List Event → List Nat →
    TarState × List Event × Int
  | 0, st, tr, _ => (st, tr, 0)
  | fuel + 1, st, tr, data =>
    if data = [] then (st, tr, 0)
    else if st.status = .tar_error then (st, tr, -1)
    else
      let chunkSz := min data.length st.remaining_buffBytes
      if chunkSz = 0 then (st, tr, 0)
      else
        match iterOnce cbs st tr (data.take chunkSz) with
        | .ret s t c => (s, t, c)
        | .cont s t => processAux cbs fuel s t (data.drop chunkSz)

/-- `tarStrEx_process_data` (lines 231-369): consume one chunk of input,
returning the final engine state, the trace of callback invocations
(appended to `tr`) and the C return code (`TARSTEX_ESUCCESS = 0`,
`TARSTEX_EFAILURE = -1`, `TARSTEX_EBADCHKSUM = -2`). -/
def tarStrEx_process_data (cbs : Callbacks) (st : TarState) (tr : List Event)
    (data : List Nat) : TarState × List Event × Int :=
  processAux cbs data.length st tr data

/-- `tarStrEx_finalize` (lines 200-214): if the engine is mid-file, invoke
`fileFinalize`; a non-zero result yields `TARSTEX_EFAILURE`.  The engine
state is never modified (in particular it is not moved to `tar_error`). -/
def tarStrEx_finalize (cbs : Callbacks) (st : TarState) (tr : List Event) :
    TarState × List Event × Int :=
  if st.status = .tar_fileData then
    if cbs tr .evFileFinalize ≠ 0 then (st, tr ++ [Event.evFileFinalize], -1)
    else (st, tr ++ [Event.evFileFinalize], 0)
  else (st, tr, 0)

/-- A caller driving the engine with a list of chunks, one
`tarStrEx_process_data` call per chunk, stopping at the first failed
call (as the sticky-failure contract prescribes). -/
def processChunks (cbs : Callbacks) : TarState → List Event → List (List Nat) →
    TarState × List Event × Int
  | st, tr, [] => (st, tr, 0)
  | st, tr, c :: cs =>
    match tarStrEx_process_data cbs st tr c with
    | (st1, tr1, code) =>
      if code = 0 then processChunks cbs st1 tr1 cs else (st1, tr1, code)

/-- Engine states reachable from `tarStrEx_init` by any sequence of
`tarStrEx_process_data` and `tarStrEx_finalize` calls
(`tarStrEx_finalize` returns the state unchanged, which the `fin`
constructor records explicitly). -/
inductive Reachable : TarState → Prop where
  | init (h0 : Header) : Reachable (tarStrEx_init h0)
  | step (cbs : Callbacks) (st : TarState) (tr : List Event) (data : List Nat) :
      Reachable st → Reachable (tarStrEx_process_data cbs st tr data).1
  | fin (cbs : Callbacks) (st : TarState) (tr : List Event) :
      Reachable st → Reachable (tarStrEx_finalize cbs st tr).1

/-! ### Concrete test vectors

Concrete 512-byte raw blocks used by witnesses and counterexamples.  The
checksum fields are octal ASCII; e.g. for `hdrDirB` the stored checksum is
"627" and the computed one is `256 + 98 + 53 = 407 = 0o627`. -/

/-- Callbacks that always succeed. -/
def cbs0 : Callbacks := fun _ _ => 0

/-- An arbitrary initial (uninitialized-in-C) header value. -/
def hdr0 : Header := ⟨[], 0, 0⟩

/-- Build a 512-byte block from a byte-valued function of the offset. -/
def mkBlock (f : Nat → Nat) : List Nat := (List.range 512).map f

/-- Directory header: name "b", checksum "627", type '5'. -/
def hdrDirB : List Nat := mkBlock fun i =>
  if i = 0 then 98 else if i = 148 then 54 else if i = 149 then 50
  else if i = 150 then 55 else if i = 156 then 53 else 0

/-- Regular-file header of size 1: name "a", size "1", checksum "702"
(`0o702 = 450 = 256 + 97 + 49 + 48`), type '0'. -/
def hdrReg1 : List Nat := mkBlock fun i =>
  if i = 0 then 97 else if i = 124 then 49 else if i = 148 then 55
  else if i = 149 then 48 else if i = 150 then 50 else if i = 156 then 48 else 0

/-- Regular-file header of size 0: name "a", checksum "621"
(`0o621 = 401 = 256 + 97 + 48`), type '0'. -/
def hdrReg0 : List Nat := mkBlock fun i =>
  if i = 0 then 97 else if i = 148 then 54 else if i = 149 then 50
  else if i = 150 then 49 else if i = 156 then 48 else 0

/-- Checksum-valid header of unsupported type '2' (symlink): name "a",
checksum "623" (`0o623 = 403 = 256 + 97 + 50`). -/
def hdrSym : List Nat := mkBlock fun i =>
  if i = 0 then 97 else if i = 148 then 54 else if i = 149 then 50
  else if i = 150 then 51 else if i = 156 then 50 else 0

/-- A block whose checksum field claims 1 while the computed checksum is
256: rejected as a bad checksum. -/
def badBlk : List Nat := mkBlock fun i => if i = 148 then 49 else 0

/-- Callbacks whose `fileFinalize` fails (returns 1) while all others
succeed. -/
def cbsFinFail : Callbacks := fun _ e =>
  match e with
  | .evFileFinalize => 1
  | _ => 0

/-- Callbacks whose `fileInit` fails (returns 1) while all others
succeed. -/
def cbsInitFail : Callbacks := fun _ e =>
  match e with
  | .evFileInit _ => 1
  | _ => 0

/-- Checksum-valid regular-file header whose 100-byte name field contains
no NUL terminator (100 × 'a') and whose mode field is "1111111" + NUL:
checksum `256 + 100*97 + 7*49 + 48 = 10347 = 0o24153`. -/
def hdrOverrun : List Nat := mkBlock fun i =>
  if i < 100 then 97 else if i < 107 then 49
  else if i = 148 then 50 else if i = 149 then 52 else if i = 150 then 49
  else if i = 151 then 53 else if i = 152 then 51 else if i = 156 then 48 else 0

/-! ### Invariants and unfolding lemmas -/

/-- Invariant of reachable engine states: the filled prefix of the block
buffer has length `buffIdx`, cursor plus remaining block space is exactly
one block (claim C10), and outside the error state the block buffer has
room (which is what makes the C `while` loop productive). -/
def Inv (st : TarState) : Prop :=
  st.blockBuff.length = st.buffIdx ∧
  st.buffIdx + st.remaining_buffBytes = 512 ∧
  (st.status ≠ .tar_error → 1 ≤ st.remaining_buffBytes)

theorem processAux_congr (cbs : Callbacks) (f1 : Nat) :
    ∀ f2 st tr data, data.length ≤ f1 → data.length ≤ f2 →
      processAux cbs f1 st tr data = processAux cbs f2 st tr data := by
  induction f1 with
  | zero =>
    intro f2 st tr data h1 _
    have hd : data = [] := List.length_eq_zero.mp (Nat.le_zero.mp h1)
    subst hd
    cases f2 <;> simp [processAux]
  | succ n ih =>
    intro f2 st tr data h1 h2
    match f2 with
    | 0 =>
      have hd : data = [] := List.length_eq_zero.mp (Nat.le_zero.mp h2)
      subst hd; simp [processAux]
    | m + 1 =>
      simp only [processAux]
      by_cases hd : data = []
      · simp [hd]
      · simp only [hd, if_false]
        by_cases herr : st.status = .tar_error
        · simp [herr]
        · simp only [herr, if_false]
          by_cases hc : min data.length st.remaining_buffBytes = 0
          · simp [hc]
          · simp only [hc, if_false]
            cases iterOnce cbs st tr (data.take (min data.length st.remaining_buffBytes)) with
            | ret s t c => rfl
            | cont s t =>
              have hlen : data.length ≠ 0 := fun h => hd (List.length_eq_zero.mp h)
              have hpos : 1 ≤ min data.length st.remaining_buffBytes :=
                Nat.pos_of_ne_zero hc
              apply ih
              · simp only [List.length_drop]; omega
              · simp only [List.length_drop]; omega

/-- One-step unfolding of `tarStrEx_process_data`, mirroring one iteration
of the C `while` loop. -/
theorem process_eq (cbs : Callbacks) (st : TarState) (tr : List Event)
    (data : List Nat) :
    tarStrEx_process_data cbs st tr data =
      if data = [] then (st, tr, 0)
      else if st.status = .tar_error then (st, tr, -1)
      else if min data.length st.remaining_buffBytes = 0 then (st, tr, 0)
      else
        match iterOnce cbs st tr (data.take (min data.length st.remaining_buffBytes)) with
        | .ret s t c => (s, t, c)
        | .cont s t =>
          tarStrEx_process_data cbs s t
            (data.drop (min data.length st.remaining_buffBytes)) := by
  cases data with
  | nil => simp [tarStrEx_process_data, processAux]
  | cons x xs =>
    show processAux cbs (xs.length + 1) st tr (x :: xs) = _
    simp only [processAux]
    by_cases herr : st.status = .tar_error
    · simp [herr]
    · simp only [herr, if_false]
      by_cases hr : st.remaining_buffBytes = 0
      · simp [hr]
      · have hc : min (x :: xs).length st.remaining_buffBytes ≠ 0 := by
          simp only [List.length_cons, Nat.min_eq_zero_iff]; omega
        simp only [hc, if_false, List.cons_ne_self]
        have hpos : 1 ≤ min (x :: xs).length st.remaining_buffBytes :=
          Nat.pos_of_ne_zero hc
        simp only [if_neg hc, if_neg (List.cons_ne_nil x xs)]
        cases iterOnce cbs st tr
            ((x :: xs).take (min (x :: xs).length st.remaining_buffBytes)) with
        | ret s t c => simp
        | cont s t =>
          simp only
          exact processAux_congr cbs xs.length _ s t _
            (by simp only [List.length_drop, List.length_cons] at hpos ⊢; omega)
            le_rfl

/-- `t` extends `tr` and every event of the extension that is not a
`fileFinalize` got callback result 0 (the `fileFinalize` result is the
only one `tarStrEx_process_data` ignores). -/
def CleanExt (cbs : Callbacks) (tr t : List Event) : Prop :=
  ∀ i, tr.length ≤ i → i < t.length →
    t.getD i .evFileFinalize ≠ .evFileFinalize →
    cbs (t.take i) (t.getD i .evFileFinalize) = 0

theorem cleanExt_refl (cbs : Callbacks) (tr : List Event) : CleanExt cbs tr tr :=
  fun _ h1 h2 _ => absurd h2 (Nat.not_lt.mpr h1)

theorem cleanExt_one (cbs : Callbacks) (tr : List Event) (e : Event)
    (h : e ≠ .evFileFinalize → cbs tr e = 0) : CleanExt cbs tr (tr ++ [e]) := by
  intro i h1 h2 h3
  have hi : i = tr.length := by
    simp only [List.length_append, List.length_cons, List.length_nil] at h2; omega
  subst hi
  rw [List.getD_append_right _ _ _ _ le_rfl] at h3 ⊢
  rw [List.take_left]
  simp only [Nat.sub_self, List.getD] at h3 ⊢
  exact h h3

theorem cleanExt_two (cbs : Callbacks) (tr : List Event) (e : Event)
    (h : e ≠ .evFileFinalize → cbs tr e = 0) :
    CleanExt cbs tr (tr ++ [e] ++ [Event.evFileFinalize]) := by
  intro i h1 h2 h3
  rw [List.append_assoc] at h2 h3 ⊢
  simp only [List.length_append, List.length_cons, List.length_nil] at h2
  rcases Nat.lt_or_ge i (tr.length + 1) with hlt | hge
  · have hi : i = tr.length := by omega
    subst hi
    rw [List.getD_append_right _ _ _ _ le_rfl] at h3 ⊢
    rw [List.take_left]
    simp only [Nat.sub_self, List.getD] at h3 ⊢
    exact h h3
  · have hi : i = tr.length + 1 := by omega
    subst hi
    rw [List.getD_append_right _ _ _ _ (by omega)] at h3
    have : tr.length + 1 - tr.length = 1 := by omega
    rw [this] at h3
    simp [List.getD] at h3

theorem cleanExt_trans (cbs : Callbacks) (tr t1 t2 : List Event)
    (hext : ∃ n2, t2 = t1 ++ n2)
    (h1 : CleanExt cbs tr t1) (h2 : CleanExt cbs t1 t2) : CleanExt cbs tr t2 := by
  obtain ⟨n2, rfl⟩ := hext
  intro i hi1 hi2 hi3
  rcases Nat.lt_or_ge i t1.length with hlt | hge
  · rw [List.getD_append _ _ _ _ hlt] at hi3 ⊢
    rw [List.take_append_of_le_length (Nat.le_of_lt hlt)]
    exact h1 i hi1 hlt hi3
  · exact h2 i hge hi2 hi3

/-- Everything a single loop iteration guarantees, for both outcomes:
the invariant is preserved, a `cont` state is not the error state while a
`ret` state is, early-return codes are the failure codes, the trace only
grows, and every non-`fileFinalize` callback invoked in a `cont`
iteration returned 0. -/
def StepOk (cbs : Callbacks) (tr : List Event) : StepRes → Prop
  | .cont s t => Inv s ∧ s.status ≠ .tar_error ∧ (∃ new, t = tr ++ new) ∧ CleanExt cbs tr t
  | .ret s t c => Inv s ∧ s.status = .tar_error ∧ (c = -1 ∨ c = -2) ∧ ∃ new, t = tr ++ new

/-- `Inv` holds of any state whose block cursor has just been reset. -/
theorem Inv_reset (rfd : Nat) (stat : TarStatus) (hd : Header) :
    Inv ⟨[], 0, 512, rfd, stat, hd⟩ :=
  ⟨rfl, rfl, fun _ => show (1 : Nat) ≤ 512 by omega⟩

/-- `Inv` holds of the state right after the `memcpy` of a chunk that fits
in the remaining block space, for any status that is either the error
status or leaves at least one free byte. -/
theorem Inv_grow (bb chunk : List Nat) (bi rbb rfd : Nat) (stat : TarStatus)
    (hd : Header) (hb : bb.length = bi) (hi : bi + rbb = 512)
    (hle : chunk.length ≤ rbb)
    (h1 : stat ≠ .tar_error → 1 ≤ rbb - chunk.length) :
    Inv ⟨bb ++ chunk, bi + chunk.length, rbb - chunk.length, rfd, stat, hd⟩ :=
  ⟨show (bb ++ chunk).length = bi + chunk.length by simp [hb],
   show bi + chunk.length + (rbb - chunk.length) = 512 by omega, h1⟩

theorem iterOnce_ok (cbs : Callbacks) (st : TarState) (tr : List Event)
    (chunk : List Nat) (hInv : Inv st)
    (hle : chunk.length ≤ st.remaining_buffBytes)
    (hne : st.status ≠ .tar_error) :
    StepOk cbs tr (iterOnce cbs st tr chunk) := by
  obtain ⟨bb, bi, rbb, rfd, stat, hd⟩ := st
  have hb : bb.length = bi := hInv.1
  have hi : bi + rbb = 512 := hInv.2.1
  have hle' : chunk.length ≤ rbb := hle
  have hne' : stat ≠ .tar_error := hne
  cases stat with
  | tar_error => exact absurd rfl hne'
  | tar_header =>
    simp only [iterOnce]
    split
    · rename_i h0
      split
      · exact ⟨Inv_reset _ _ _, by simp, ⟨[], by simp⟩, cleanExt_refl cbs tr⟩
      · exact ⟨Inv_grow bb chunk bi rbb rfd _ hd hb hi hle' (fun h => absurd rfl h),
          rfl, Or.inr rfl, ⟨[], by simp⟩⟩
      · rename_i h heq
        split
        · split
          · exact ⟨Inv_grow bb chunk bi rbb rfd _ h hb hi hle' (fun hx => absurd rfl hx),
              rfl, Or.inl rfl, ⟨_, rfl⟩⟩
          · rename_i hr
            exact ⟨Inv_reset _ _ _, by simp, ⟨_, rfl⟩,
              cleanExt_one cbs tr _ (fun _ => not_not.mp hr)⟩
        · split
          · split
            · exact ⟨Inv_grow bb chunk bi rbb rfd _ h hb hi hle' (fun hx => absurd rfl hx),
                rfl, Or.inl rfl, ⟨_, rfl⟩⟩
            · rename_i hr
              exact ⟨Inv_reset _ _ _, by simp, ⟨_, rfl⟩,
                cleanExt_one cbs tr _ (fun _ => not_not.mp hr)⟩
          · exact ⟨Inv_grow bb chunk bi rbb rfd _ h hb hi hle' (fun hx => absurd rfl hx),
              rfl, Or.inl rfl, ⟨[], by simp⟩⟩
    · rename_i h0
      exact ⟨Inv_grow bb chunk bi rbb rfd _ hd hb hi hle' (fun _ => by omega),
        by simp, ⟨[], by simp⟩, cleanExt_refl cbs tr⟩
  | tar_fileData =>
    simp only [iterOnce]
    split
    · split
      · rename_i hr
        exact ⟨Inv_grow bb chunk bi rbb _ _ hd hb hi hle' (fun hx => absurd rfl hx),
          rfl, Or.inl rfl, ⟨_, by rw [List.append_assoc]⟩⟩
      · rename_i hr
        split
        · exact ⟨Inv_reset _ _ _, by simp, ⟨_, by rw [List.append_assoc]⟩,
            cleanExt_two cbs tr _ (fun _ => not_not.mp hr)⟩
        · rename_i h0
          exact ⟨Inv_grow bb chunk bi rbb _ _ hd hb hi hle' (fun _ => by omega),
            by simp, ⟨_, by rw [List.append_assoc]⟩,
            cleanExt_two cbs tr _ (fun _ => not_not.mp hr)⟩
    · split
      · split
        · rename_i hr
          exact ⟨Inv_grow bb chunk bi rbb _ _ hd hb hi hle' (fun hx => absurd rfl hx),
            rfl, Or.inl rfl, ⟨_, rfl⟩⟩
        · rename_i hr
          exact ⟨Inv_reset _ _ _, by simp, ⟨_, rfl⟩,
            cleanExt_one cbs tr _ (fun _ => not_not.mp hr)⟩
      · rename_i h0
        exact ⟨Inv_grow bb chunk bi rbb _ _ hd hb hi hle' (fun _ => by omega),
          by simp, ⟨[], by simp⟩, cleanExt_refl cbs tr⟩
  | tar_filePad =>
    simp only [iterOnce]
    split
    · exact ⟨Inv_reset _ _ _, by simp, ⟨[], by simp⟩, cleanExt_refl cbs tr⟩
    · rename_i h0
      exact ⟨Inv_grow bb chunk bi rbb rfd _ hd hb hi hle' (fun _ => by omega),
        by simp, ⟨[], by simp⟩, cleanExt_refl cbs tr⟩

/-- Everything a whole `tarStrEx_process_data` call guarantees: the
invariant is preserved, the trace only grows, a call that returns 0 only
recorded non-`fileFinalize` callbacks with result 0, and a call that
returns a non-zero code leaves the engine in the error state. -/
def ProcOk (cbs : Callbacks) (tr : List Event) (r : TarState × List Event × Int) : Prop :=
  Inv r.1 ∧ (∃ new, r.2.1 = tr ++ new) ∧
  (r.2.2 = 0 → CleanExt cbs tr r.2.1) ∧
  (r.2.2 ≠ 0 → r.1.status = .tar_error)

theorem process_ok (cbs : Callbacks) (data : List Nat) (st : TarState)
    (tr : List Event) (hInv : Inv st) :
    ProcOk cbs tr (tarStrEx_process_data cbs st tr data) := by
  suffices H : ∀ n (d : List Nat), d.length ≤ n → ∀ s t, Inv s →
      ProcOk cbs t (tarStrEx_process_data cbs s t d) from
    H data.length data le_rfl st tr hInv
  intro n
  induction n with
  | zero =>
    intro d hlen s t hInv
    have hd : d = [] := List.length_eq_zero.mp (Nat.le_zero.mp hlen)
    subst hd
    rw [process_eq]
    exact ⟨hInv, ⟨[], by simp⟩, fun _ => cleanExt_refl cbs t, fun h => absurd rfl h⟩
  | succ n ih =>
    intro d hlen s t hInv
    rw [process_eq]
    split
    · exact ⟨hInv, ⟨[], by simp⟩, fun _ => cleanExt_refl cbs t, fun h => absurd rfl h⟩
    · rename_i hd
      split
      · rename_i herr
        exact ⟨hInv, ⟨[], by simp⟩, fun h => absurd h (by simp), fun _ => herr⟩
      · rename_i herr
        split
        · exact ⟨hInv, ⟨[], by simp⟩, fun _ => cleanExt_refl cbs t, fun h => absurd rfl h⟩
        · rename_i hc
          have hle2 : (d.take (min d.length s.remaining_buffBytes)).length ≤
              s.remaining_buffBytes := by
            rw [List.length_take]; omega
          have hstep := iterOnce_ok cbs s t
            (d.take (min d.length s.remaining_buffBytes)) hInv hle2 herr
          split
          · rename_i s1 t1 c1 heq
            rw [heq] at hstep
            obtain ⟨hI, hs, hcode, hext⟩ := hstep
            exact ⟨hI, hext,
              fun h0 => absurd h0 (by rcases hcode with h | h <;> simp [h]),
              fun _ => hs⟩
          · rename_i s1 t1 heq
            rw [heq] at hstep
            obtain ⟨hI, hs, hext, hclean⟩ := hstep
            have hrec := ih (d.drop (min d.length s.remaining_buffBytes))
              (by rw [List.length_drop]; omega) s1 t1 hI
            obtain ⟨rI, rext, rclean, rerr⟩ := hrec
            refine ⟨rI, ?_, ?_, rerr⟩
            · obtain ⟨n1, h1⟩ := hext
              obtain ⟨n2, h2⟩ := rext
              exact ⟨n1 ++ n2, by rw [h2, h1, List.append_assoc]⟩
            · intro h0
              exact cleanExt_trans cbs t t1 _ rext hclean (rclean h0)

/-- Splitting one loop iteration: copying `c1 ++ c2` in a single `memcpy`
is equivalent to copying `c1` and then `c2`, provided both fit into the
remaining block space together (so neither iteration completes the block
prematurely).  If the `c1` iteration returns early (a data callback
failure at a file-completion point), the combined iteration returns early
with the same trace and code (the staging buffer contents differ, as the
combined `memcpy` has already copied `c2`). -/
theorem iterOnce_split (cbs : Callbacks) (st : TarState) (tr : List Event)
    (c1 c2 : List Nat) (hb : st.blockBuff.length = st.buffIdx)
    (hne : st.status ≠ .tar_error) (h1 : 1 ≤ c1.length) (h2 : 1 ≤ c2.length)
    (hle : c1.length + c2.length ≤ st.remaining_buffBytes) :
    (∀ s1 t1, iterOnce cbs st tr c1 = .cont s1 t1 →
        s1.remaining_buffBytes = st.remaining_buffBytes - c1.length ∧
        iterOnce cbs st tr (c1 ++ c2) = iterOnce cbs s1 t1 c2) ∧
    (∀ s1 t1 cd, iterOnce cbs st tr c1 = .ret s1 t1 cd →
        ∃ s2, iterOnce cbs st tr (c1 ++ c2) = .ret s2 t1 cd) := by
  obtain ⟨bb, bi, rbb, rfd, stat, hd⟩ := st
  have hb' : bb.length = bi := hb
  have hne' : stat ≠ .tar_error := hne
  have hle' : c1.length + c2.length ≤ rbb := hle
  have hrbb1 : ¬(rbb - c1.length = 0) := by omega
  cases stat with
  | tar_error => exact absurd rfl hne'
  | tar_header =>
    have hform : iterOnce cbs ⟨bb, bi, rbb, rfd, .tar_header, hd⟩ tr c1 =
        .cont ⟨bb ++ c1, bi + c1.length, rbb - c1.length, rfd, .tar_header, hd⟩ tr := by
      simp only [iterOnce]
      rw [if_neg hrbb1]
    constructor
    · intro s1 t1 hEq
      rw [hform, StepRes.cont.injEq] at hEq
      obtain ⟨hEq1, hEq2⟩ := hEq
      subst hEq1; subst hEq2
      refine ⟨rfl, ?_⟩
      simp only [iterOnce, List.length_append, List.append_assoc, Nat.add_assoc,
        Nat.sub_sub]
    · intro s1 t1 cd hEq
      rw [hform] at hEq
      exact StepRes.noConfusion hEq
  | tar_filePad =>
    have hform : iterOnce cbs ⟨bb, bi, rbb, rfd, .tar_filePad, hd⟩ tr c1 =
        .cont ⟨bb ++ c1, bi + c1.length, rbb - c1.length, rfd, .tar_filePad, hd⟩ tr := by
      simp only [iterOnce]
      rw [if_neg hrbb1]
    constructor
    · intro s1 t1 hEq
      rw [hform, StepRes.cont.injEq] at hEq
      obtain ⟨hEq1, hEq2⟩ := hEq
      subst hEq1; subst hEq2
      refine ⟨rfl, ?_⟩
      simp only [iterOnce, List.length_append, List.append_assoc, Nat.add_assoc,
        Nat.sub_sub]
    · intro s1 t1 cd hEq
      rw [hform] at hEq
      exact StepRes.noConfusion hEq
  | tar_fileData =>
    by_cases hcomp1 : rfd - min rfd c1.length = 0
    · -- the file payload completes within `c1`
      have hcompC : rfd - min rfd (c1.length + c2.length) = 0 := by omega
      have epay : (bb ++ (c1 ++ c2)).take
            (bi + (c1.length + c2.length) -
              (c1.length + c2.length - min rfd (c1.length + c2.length))) =
          (bb ++ c1).take (bi + c1.length - (c1.length - min rfd c1.length)) := by
        rw [← List.append_assoc,
          List.take_append_of_le_length (by simp only [List.length_append, hb']; omega)]
        congr 1
        omega
      by_cases hr : cbs tr (Event.evRecvData
          ((bb ++ c1).take (bi + c1.length - (c1.length - min rfd c1.length)))) ≠ 0
      · have hform : iterOnce cbs ⟨bb, bi, rbb, rfd, .tar_fileData, hd⟩ tr c1 =
            .ret ⟨bb ++ c1, bi + c1.length, rbb - c1.length,
                  rfd - min rfd c1.length, .tar_error, hd⟩
              (tr ++ [Event.evRecvData ((bb ++ c1).take
                  (bi + c1.length - (c1.length - min rfd c1.length)))] ++
                [Event.evFileFinalize]) (-1) := by
          simp only [iterOnce]
          rw [if_pos hcomp1, if_pos hr]
        have hformC : iterOnce cbs ⟨bb, bi, rbb, rfd, .tar_fileData, hd⟩ tr (c1 ++ c2) =
            .ret ⟨bb ++ (c1 ++ c2), bi + (c1.length + c2.length),
                  rbb - (c1.length + c2.length),
                  rfd - min rfd (c1.length + c2.length), .tar_error, hd⟩
              (tr ++ [Event.evRecvData ((bb ++ c1).take
                  (bi + c1.length - (c1.length - min rfd c1.length)))] ++
                [Event.evFileFinalize]) (-1) := by
          simp only [iterOnce, List.length_append]
          rw [if_pos hcompC, epay, if_pos hr]
        constructor
        · intro s1 t1 hEq
          rw [hform] at hEq
          exact StepRes.noConfusion hEq
        · intro s1 t1 cd hEq
          rw [hform, StepRes.ret.injEq] at hEq
          obtain ⟨hEq1, hEq2, hEq3⟩ := hEq
          subst hEq2; subst hEq3
          exact ⟨_, hformC⟩
      · have hform : iterOnce cbs ⟨bb, bi, rbb, rfd, .tar_fileData, hd⟩ tr c1 =
            .cont ⟨bb ++ c1, bi + c1.length, rbb - c1.length, 0, .tar_filePad, hd⟩
              (tr ++ [Event.evRecvData ((bb ++ c1).take
                  (bi + c1.length - (c1.length - min rfd c1.length)))] ++
                [Event.evFileFinalize]) := by
          simp only [iterOnce]
          rw [if_pos hcomp1, if_neg hr, if_neg hrbb1, hcomp1]
        constructor
        · intro s1 t1 hEq
          rw [hform, StepRes.cont.injEq] at hEq
          obtain ⟨hEq1, hEq2⟩ := hEq
          subst hEq1; subst hEq2
          refine ⟨rfl, ?_⟩
          simp only [iterOnce, List.length_append]
          rw [if_pos hcompC, epay, if_neg hr]
          simp only [List.append_assoc, Nat.add_assoc, Nat.sub_sub, hcompC]
        · intro s1 t1 cd hEq
          rw [hform] at hEq
          exact StepRes.noConfusion hEq
    · -- the file payload does not complete within `c1`
      have hmin1 : min rfd c1.length = c1.length := by omega
      have hform : iterOnce cbs ⟨bb, bi, rbb, rfd, .tar_fileData, hd⟩ tr c1 =
          .cont ⟨bb ++ c1, bi + c1.length, rbb - c1.length,
                rfd - c1.length, .tar_fileData, hd⟩ tr := by
        simp only [iterOnce]
        rw [if_neg hcomp1, if_neg hrbb1, hmin1]
      constructor
      · intro s1 t1 hEq
        rw [hform, StepRes.cont.injEq] at hEq
        obtain ⟨hEq1, hEq2⟩ := hEq
        subst hEq1; subst hEq2
        refine ⟨rfl, ?_⟩
        have econd : rfd - min rfd (c1.length + c2.length) =
            rfd - c1.length - min (rfd - c1.length) c2.length := by omega
        have eidx : bi + (c1.length + c2.length) -
              (c1.length + c2.length - min rfd (c1.length + c2.length)) =
            bi + (c1.length + c2.length) -
              (c2.length - min (rfd - c1.length) c2.length) := by omega
        simp only [iterOnce, List.length_append, econd, eidx, List.append_assoc,
          Nat.add_assoc, Nat.sub_sub]
      · intro s1 t1 cd hEq
        rw [hform] at hEq
        exact StepRes.noConfusion hEq

/-- Decomposition of a successful call: processing `a ++ b` in one
`tarStrEx_process_data` call is the same as processing `a` and then `b`,
and the `a` part of a successful combined call is itself successful.
This is the heart of chunking invariance. -/
theorem process_append (cbs : Callbacks) (b : List Nat) :
    ∀ (a : List Nat) (st : TarState) (tr : List Event), Inv st →
      (tarStrEx_process_data cbs st tr (a ++ b)).2.2 = 0 →
      tarStrEx_process_data cbs st tr (a ++ b) =
        tarStrEx_process_data cbs (tarStrEx_process_data cbs st tr a).1
          (tarStrEx_process_data cbs st tr a).2.1 b ∧
      (tarStrEx_process_data cbs st tr a).2.2 = 0 := by
  suffices H : ∀ n (a : List Nat), a.length ≤ n → ∀ st tr, Inv st →
      (tarStrEx_process_data cbs st tr (a ++ b)).2.2 = 0 →
      tarStrEx_process_data cbs st tr (a ++ b) =
        tarStrEx_process_data cbs (tarStrEx_process_data cbs st tr a).1
          (tarStrEx_process_data cbs st tr a).2.1 b ∧
      (tarStrEx_process_data cbs st tr a).2.2 = 0 from
    fun a st tr hInv hsucc => H a.length a le_rfl st tr hInv hsucc
  intro n
  induction n with
  | zero =>
    intro a hlen st tr hInv hsucc
    have ha : a = [] := List.length_eq_zero.mp (Nat.le_zero.mp hlen)
    subst ha
    have h0 : tarStrEx_process_data cbs st tr [] = (st, tr, 0) := by
      rw [process_eq]; simp
    rw [List.nil_append] at hsucc ⊢
    rw [h0]
    exact ⟨rfl, rfl⟩
  | succ n ih =>
    intro a hlen st tr hInv hsucc
    by_cases ha : a = []
    · subst ha
      have h0 : tarStrEx_process_data cbs st tr [] = (st, tr, 0) := by
        rw [process_eq]; simp
      rw [List.nil_append] at hsucc ⊢
      rw [h0]
      exact ⟨rfl, rfl⟩
    · have hla : 1 ≤ a.length := List.length_pos.mpr ha
      have hab : a ++ b ≠ [] := by
        intro h; exact ha (List.append_eq_nil.mp h).1
      by_cases herr : st.status = .tar_error
      · rw [process_eq, if_neg hab, if_pos herr] at hsucc
        exact absurd hsucc (by simp)
      · have hR : 1 ≤ st.remaining_buffBytes := hInv.2.2 herr
        by_cases hb0 : b = []
        · subst hb0
          rw [List.append_nil] at hsucc ⊢
          have h0 : tarStrEx_process_data cbs
              (tarStrEx_process_data cbs st tr a).1
              (tarStrEx_process_data cbs st tr a).2.1 [] =
              ((tarStrEx_process_data cbs st tr a).1,
               (tarStrEx_process_data cbs st tr a).2.1, 0) := by
            rw [process_eq]; simp
          refine ⟨?_, hsucc⟩
          rw [h0, ← hsucc]
        · have hlb : 1 ≤ b.length := List.length_pos.mpr hb0
          by_cases hsp : st.remaining_buffBytes ≤ a.length
          · -- aligned: the first iteration never reads past the end of `a`
            have hcab : min (a ++ b).length st.remaining_buffBytes =
                st.remaining_buffBytes := by
              simp only [List.length_append]; omega
            have hca : min a.length st.remaining_buffBytes =
                st.remaining_buffBytes := by omega
            have hgab : ¬(min (a ++ b).length st.remaining_buffBytes = 0) := by
              rw [hcab]; omega
            have hga : ¬(min a.length st.remaining_buffBytes = 0) := by
              rw [hca]; omega
            have hchunk : (a ++ b).take (min (a ++ b).length st.remaining_buffBytes) =
                a.take (min a.length st.remaining_buffBytes) := by
              rw [hcab, hca, List.take_append_of_le_length hsp]
            have hdrop : (a ++ b).drop (min (a ++ b).length st.remaining_buffBytes) =
                a.drop (min a.length st.remaining_buffBytes) ++ b := by
              rw [hcab, hca, List.drop_append_of_le_length hsp]
            have htk : (a.take (min a.length st.remaining_buffBytes)).length ≤
                st.remaining_buffBytes := by
              rw [List.length_take]; omega
            have hstep := iterOnce_ok cbs st tr
              (a.take (min a.length st.remaining_buffBytes)) hInv htk herr
            rw [process_eq, if_neg hab, if_neg herr, if_neg hgab, hchunk, hdrop]
              at hsucc ⊢
            rw [process_eq cbs st tr a, if_neg ha, if_neg herr, if_neg hga]
            cases hiter : iterOnce cbs st tr
                (a.take (min a.length st.remaining_buffBytes)) with
            | ret s t c =>
              simp only [hiter] at hsucc hstep
              obtain ⟨-, -, hcode, -⟩ := hstep
              exact absurd hsucc (by rcases hcode with h | h <;> simp [h])
            | cont s t =>
              simp only [hiter] at hsucc hstep ⊢
              obtain ⟨hI, -, -, -⟩ := hstep
              exact ih (a.drop (min a.length st.remaining_buffBytes))
                (by rw [List.length_drop]; omega) s t hI hsucc
          · -- straddle: `a` is consumed whole by the first iteration
            push_neg at hsp
            have hca : min a.length st.remaining_buffBytes = a.length := by omega
            have hga : ¬(min a.length st.remaining_buffBytes = 0) := by
              rw [hca]; omega
            have hm1 : 1 ≤ min b.length (st.remaining_buffBytes - a.length) := by
              omega
            have hcab : min (a ++ b).length st.remaining_buffBytes =
                a.length + min b.length (st.remaining_buffBytes - a.length) := by
              simp only [List.length_append]; omega
            have hgab : ¬(min (a ++ b).length st.remaining_buffBytes = 0) := by
              rw [hcab]; omega
            have hchunk : (a ++ b).take (min (a ++ b).length st.remaining_buffBytes) =
                a ++ b.take (min b.length (st.remaining_buffBytes - a.length)) := by
              rw [hcab, List.take_append]
            have hdrop : (a ++ b).drop (min (a ++ b).length st.remaining_buffBytes) =
                b.drop (min b.length (st.remaining_buffBytes - a.length)) := by
              rw [hcab, List.drop_append]
            have hlentk : (b.take (min b.length
                (st.remaining_buffBytes - a.length))).length =
                min b.length (st.remaining_buffBytes - a.length) := by
              rw [List.length_take]; omega
            have hsplit2 := iterOnce_split cbs st tr a
              (b.take (min b.length (st.remaining_buffBytes - a.length)))
              hInv.1 herr hla (by rw [hlentk]; omega) (by rw [hlentk]; omega)
            rw [process_eq, if_neg hab, if_neg herr, if_neg hgab, hchunk, hdrop]
              at hsucc ⊢
            rw [process_eq cbs st tr a, if_neg ha, if_neg herr, if_neg hga, hca,
              List.take_length]
            cases hiter : iterOnce cbs st tr a with
            | ret s t c =>
              obtain ⟨-, hB⟩ := hsplit2
              obtain ⟨s2, hC⟩ := hB s t c hiter
              simp only [hC] at hsucc
              have hstep := iterOnce_ok cbs st tr a hInv (by omega) herr
              rw [hiter] at hstep
              obtain ⟨-, -, hcode, -⟩ := hstep
              exact absurd hsucc (by rcases hcode with h | h <;> simp [h])
            | cont s t =>
              obtain ⟨hA, -⟩ := hsplit2
              obtain ⟨hrbb2, hCC⟩ := hA s t hiter
              simp only [hCC] at hsucc ⊢
              rw [List.drop_length]
              have h0 : tarStrEx_process_data cbs s t [] = (s, t, 0) := by
                rw [process_eq]; simp
              rw [h0]
              dsimp only
              have hstep := iterOnce_ok cbs st tr a hInv (by omega) herr
              rw [hiter] at hstep
              obtain ⟨hIs, hnes, -, -⟩ := hstep
              have hcb : min b.length s.remaining_buffBytes =
                  min b.length (st.remaining_buffBytes - a.length) := by
                rw [hrbb2]
              have hgb : ¬(min b.length s.remaining_buffBytes = 0) := by
                rw [hcb]; omega
              rw [process_eq cbs s t b, if_neg hb0, if_neg hnes, if_neg hgb, hcb]
              exact ⟨rfl, rfl⟩

theorem Inv_init (h0 : Header) : Inv (tarStrEx_init h0) :=
  ⟨rfl, rfl, fun _ => show (1 : Nat) ≤ 512 by omega⟩

/-- Driving the engine chunk by chunk equals processing the joined stream
in one call, whenever the joined run succeeds. -/
theorem processChunks_join (cbs : Callbacks) (chunks : List (List Nat)) :
    ∀ st tr, Inv st →
      (tarStrEx_process_data cbs st tr chunks.flatten).2.2 = 0 →
      processChunks cbs st tr chunks =
        tarStrEx_process_data cbs st tr chunks.flatten := by
  induction chunks with
  | nil =>
    intro st tr _ _
    rw [processChunks, process_eq]
    simp
  | cons c cs ih =>
    intro st tr hInv hsucc
    rw [List.flatten_cons] at hsucc ⊢
    obtain ⟨hEq, hc0⟩ := process_append cbs cs.flatten c st tr hInv hsucc
    rcases hr : tarStrEx_process_data cbs st tr c with ⟨s1, t1, code⟩
    rw [hr] at hEq hc0
    dsimp only at hEq hc0
    rw [processChunks, hr, hc0]
    dsimp only
    rw [if_pos rfl, hEq]
    have hI1 : Inv s1 := by
      have := (process_ok cbs c st tr hInv).1
      rw [hr] at this
      exact this
    exact ih s1 t1 hI1 (by rw [← hEq, hsucc])

/-! ### Claim theorems -/

/-- C1: Chunking invariance.  For every archive byte stream that the
engine processes successfully in one `tarStrEx_process_data` call from a
freshly initialized engine (which is what a well-formed stream guarantees)
and every partition of it into consecutive chunks — `chunks.flatten` is
the stream — driving the engine chunk by chunk produces the identical
callback-invocation trace, the identical final engine state and the same
return code as the single call. -/
theorem chunking_invariance (cbs : Callbacks) (h0 : Header)
    (chunks : List (List Nat))
    (hsucc : (tarStrEx_process_data cbs (tarStrEx_init h0) []
      chunks.flatten).2.2 = 0) :
    processChunks cbs (tarStrEx_init h0) [] chunks =
      tarStrEx_process_data cbs (tarStrEx_init h0) [] chunks.flatten :=
  processChunks_join cbs chunks (tarStrEx_init h0) [] (Inv_init h0) hsucc

/-- `tarStrEx_finalize` never modifies the engine state. -/
theorem tarStrEx_finalize_fst (cbs : Callbacks) (st : TarState) (tr : List Event) :
    (tarStrEx_finalize cbs st tr).1 = st := by
  unfold tarStrEx_finalize
  split
  · split <;> rfl
  · rfl

/-- Processing `block ++ rest` from a state with a freshly reset block
cursor performs one full-block iteration on `block` and then processes
`rest` (the `memcpy` never crosses a block boundary). -/
theorem process_block_step (cbs : Callbacks) (hd : Header) (rfd : Nat)
    (stat : TarStatus) (tr : List Event) (block rest : List Nat)
    (hlen : block.length = 512) (hne : stat ≠ .tar_error) :
    tarStrEx_process_data cbs ⟨[], 0, 512, rfd, stat, hd⟩ tr (block ++ rest) =
      (match iterOnce cbs ⟨[], 0, 512, rfd, stat, hd⟩ tr block with
       | .ret s t c => (s, t, c)
       | .cont s t => tarStrEx_process_data cbs s t rest) := by
  have hbr : block ++ rest ≠ [] := by
    intro h
    rw [(List.append_eq_nil.mp h).1] at hlen
    simp at hlen
  have hmin : min (block ++ rest).length
      (TarState.mk [] 0 512 rfd stat hd).remaining_buffBytes = 512 := by
    simp only [List.length_append, hlen]
    omega
  rw [process_eq, if_neg hbr, if_neg hne, hmin,
    if_neg (by omega : ¬(512 = 0)), List.take_left' hlen, List.drop_left' hlen]

/-- Processing the empty chunk returns immediately. -/
theorem process_nil (cbs : Callbacks) (st : TarState) (tr : List Event) :
    tarStrEx_process_data cbs st tr [] = (st, tr, 0) := by
  rw [process_eq]; simp

/-- Single-block version of `process_block_step`. -/
theorem process_one_block (cbs : Callbacks) (hd : Header) (rfd : Nat)
    (stat : TarStatus) (tr : List Event) (block : List Nat)
    (hlen : block.length = 512) (hne : stat ≠ .tar_error) :
    tarStrEx_process_data cbs ⟨[], 0, 512, rfd, stat, hd⟩ tr block =
      (match iterOnce cbs ⟨[], 0, 512, rfd, stat, hd⟩ tr block with
       | .ret s t c => (s, t, c)
       | .cont s t => (s, t, 0)) := by
  have h := process_block_step cbs hd rfd stat tr block [] hlen hne
  rw [List.append_nil] at h
  rw [h]
  cases iterOnce cbs ⟨[], 0, 512, rfd, stat, hd⟩ tr block with
  | ret s t c => rfl
  | cont s t => exact process_nil cbs s t

/-- The full-block iteration in the `tar_header` state: decode the block
and dispatch on the result, exactly as lines 253-305 of the C source. -/
theorem iterOnce_header_block (cbs : Callbacks) (h0 : Header) (rfd : Nat)
    (tr : List Event) (block : List Nat) (hlen : block.length = 512) :
    iterOnce cbs ⟨[], 0, 512, rfd, .tar_header, h0⟩ tr block =
      (match raw_to_header block with
       | .nullRecord => .cont ⟨[], 0, 512, rfd, .tar_header, h0⟩ tr
       | .badChecksum => .ret ⟨block, 512, 0, rfd, .tar_error, h0⟩ tr (-2)
       | .ok h =>
         if h.type = 48 then
           if cbs tr (Event.evFileInit h.name) ≠ 0 then
             .ret ⟨block, 512, 0, rfd, .tar_error, h⟩
               (tr ++ [Event.evFileInit h.name]) (-1)
           else
             .cont ⟨[], 0, 512, h.size, .tar_fileData, h⟩
               (tr ++ [Event.evFileInit h.name])
         else if h.type = 53 then
           if cbs tr (Event.evDirCreate h.name) ≠ 0 then
             .ret ⟨block, 512, 0, rfd, .tar_error, h⟩
               (tr ++ [Event.evDirCreate h.name]) (-1)
           else
             .cont ⟨[], 0, 512, rfd, .tar_header, h⟩
               (tr ++ [Event.evDirCreate h.name])
         else .ret ⟨block, 512, 0, rfd, .tar_error, h⟩ tr (-1)) := by
  simp only [iterOnce, List.nil_append]
  rw [if_pos (show 512 - block.length = 0 by omega)]
  simp [hlen]

/-- Witness for C1 at a concrete directory-header archive split into a
100-byte chunk and a 412-byte chunk. -/
theorem chunking_invariance_witness :
    (tarStrEx_process_data cbs0 (tarStrEx_init hdr0) []
        ([hdrDirB.take 100, hdrDirB.drop 100]).flatten).2.2 = 0 ∧
    processChunks cbs0 (tarStrEx_init hdr0) [] [hdrDirB.take 100, hdrDirB.drop 100] =
      tarStrEx_process_data cbs0 (tarStrEx_init hdr0) []
        ([hdrDirB.take 100, hdrDirB.drop 100]).flatten :=
  ⟨by decide, chunking_invariance cbs0 hdr0 [hdrDirB.take 100, hdrDirB.drop 100]
    (by decide)⟩

/-- C10: Cursor invariant.  In every engine state reachable from
`tarStrEx_init` by any sequence of `tarStrEx_process_data` and
`tarStrEx_finalize` calls, `buffIdx + remaining_buffBytes = 512`; in
particular the write cursor never exceeds the 512-byte staging buffer
(so every `memcpy` of `min dataSz remaining_buffBytes` bytes at offset
`buffIdx` stays inside `blockBuff`). -/
theorem cursor_invariant (st : TarState) (hreach : Reachable st) :
    st.buffIdx + st.remaining_buffBytes = 512 ∧ st.buffIdx ≤ 512 := by
  have hInv : Inv st := by
    induction hreach with
    | init h0 => exact Inv_init h0
    | step cbs s tr data _ ih => exact (process_ok cbs data s tr ih).1
    | fin cbs s tr _ ih => rw [tarStrEx_finalize_fst]; exact ih
  refine ⟨hInv.2.1, ?_⟩
  have := hInv.2.1
  omega

/-- Witness for C10 at the freshly initialized engine. -/
theorem cursor_invariant_witness :
    Reachable (tarStrEx_init hdr0) ∧
    (tarStrEx_init hdr0).buffIdx + (tarStrEx_init hdr0).remaining_buffBytes = 512 ∧
    (tarStrEx_init hdr0).buffIdx ≤ 512 :=
  ⟨Reachable.init hdr0, cursor_invariant (tarStrEx_init hdr0) (Reachable.init hdr0)⟩

/-- C5 (amended): sticky error.  From an engine in the error state, a
call with a chunk of positive length returns Failure (-1) immediately,
consuming nothing, invoking no callback and leaving the state unchanged;
a call with an empty chunk also has no effect but returns 0 (Success),
because the C `while (dataSz > 0)` loop never runs. -/
theorem sticky_error_amended (cbs : Callbacks) (st : TarState) (tr : List Event)
    (data : List Nat) (herr : st.status = .tar_error) :
    (data ≠ [] → tarStrEx_process_data cbs st tr data = (st, tr, -1)) ∧
    tarStrEx_process_data cbs st tr [] = (st, tr, 0) :=
  ⟨fun hd => by rw [process_eq, if_neg hd, if_pos herr], process_nil cbs st tr⟩

/-- Counterexample to C5 as stated: after a bad-checksum block the engine
is in the error state, yet `tarStrEx_process_data` with an empty
(0-length) chunk returns 0, i.e. Success, not Failure. -/
theorem sticky_error_cex :
    (tarStrEx_process_data cbs0 (tarStrEx_init hdr0) [] badBlk).1.status =
      TarStatus.tar_error ∧
    tarStrEx_process_data cbs0
        (tarStrEx_process_data cbs0 (tarStrEx_init hdr0) [] badBlk).1
        (tarStrEx_process_data cbs0 (tarStrEx_init hdr0) [] badBlk).2.1 [] =
      ((tarStrEx_process_data cbs0 (tarStrEx_init hdr0) [] badBlk).1,
       (tarStrEx_process_data cbs0 (tarStrEx_init hdr0) [] badBlk).2.1, 0) := by
  constructor
  · decide
  · exact process_nil cbs0 _ _

/-- Witness for the amended C5 at a concrete error state and a 1-byte
chunk. -/
theorem sticky_error_amended_witness :
    (([7] : List Nat) ≠ [] →
      tarStrEx_process_data cbs0 ⟨[], 0, 512, 0, .tar_error, hdr0⟩ [] [7] =
        (⟨[], 0, 512, 0, .tar_error, hdr0⟩, [], -1)) ∧
    tarStrEx_process_data cbs0 ⟨[], 0, 512, 0, .tar_error, hdr0⟩ [] [] =
      (⟨[], 0, 512, 0, .tar_error, hdr0⟩, [], 0) :=
  sticky_error_amended cbs0 ⟨[], 0, 512, 0, .tar_error, hdr0⟩ [] [7] rfl

/-- C8: Unsupported type rejection.  A checksum-valid header whose type
byte is neither '0' (48) nor '5' (53) moves the engine to the error state
and returns Failure (-1) at once, with no callback invocation (the trace
is unchanged). -/
theorem unsupported_type_rejection (cbs : Callbacks) (h0 h : Header)
    (rfd : Nat) (tr : List Event) (block : List Nat)
    (hlen : block.length = 512) (hdec : raw_to_header block = .ok h)
    (ht0 : h.type ≠ 48) (ht5 : h.type ≠ 53) :
    tarStrEx_process_data cbs ⟨[], 0, 512, rfd, .tar_header, h0⟩ tr block =
      (⟨block, 512, 0, rfd, .tar_error, h⟩, tr, -1) := by
  rw [process_one_block cbs h0 rfd _ tr block hlen (by simp),
    iterOnce_header_block cbs h0 rfd tr block hlen]
  simp only [hdec]
  rw [if_neg ht0, if_neg ht5]

/-- Witness for C8 at a concrete type-'2' (symlink) header. -/
theorem unsupported_type_rejection_witness :
    hdrSym.length = 512 ∧ raw_to_header hdrSym = .ok ⟨[97], 0, 50⟩ ∧
    tarStrEx_process_data cbs0 ⟨[], 0, 512, 0, .tar_header, hdr0⟩ [] hdrSym =
      (⟨hdrSym, 512, 0, 0, .tar_error, ⟨[97], 0, 50⟩⟩, [], -1) :=
  ⟨by decide, by decide,
   unsupported_type_rejection cbs0 hdr0 ⟨[97], 0, 50⟩ 0 [] hdrSym
     (by decide) (by decide) (by decide) (by decide)⟩

/-- C3: Checksum validation.  (1) The computed checksum equals the sum of
all 512 bytes with the 8 checksum-field bytes replaced by ASCII spaces
(the C code accumulates the equivalent bias 256 plus every byte outside
offsets 148‥155).  (2) For a block whose checksum field does not start
with NUL, `raw_to_header` reports a bad checksum if and only if the
computed checksum differs from the base-8 ASCII parse of the checksum
field.  (3) A bad checksum is fatal: the engine moves to the error state
and the call returns `TARSTEX_EBADCHKSUM` (-2) with no callback. -/
theorem checksum_validation :
    (∀ b : List Nat, b.length = 512 →
      checksum b = (b.take 148 ++ List.replicate 8 32 ++ b.drop 156).sum % 2 ^ 32) ∧
    (∀ b : List Nat, b.getD 148 0 ≠ 0 →
      (raw_to_header b = .badChecksum ↔
        checksum b ≠ strtoul8 (b.drop 148) % 2 ^ 32)) ∧
    (∀ (cbs : Callbacks) (h0 : Header) (rfd : Nat) (tr : List Event)
      (block : List Nat), block.length = 512 →
      raw_to_header block = .badChecksum →
      tarStrEx_process_data cbs ⟨[], 0, 512, rfd, .tar_header, h0⟩ tr block =
        (⟨block, 512, 0, rfd, .tar_error, h0⟩, tr, -2)) := by
  refine ⟨?_, ?_, ?_⟩
  · intro b _
    simp only [checksum, checksumOff, typeOff, List.sum_append, List.sum_replicate,
      smul_eq_mul]
    congr 1
    omega
  · intro b hnn
    simp only [raw_to_header, checksumOff]
    rw [if_neg hnn]
    by_cases hc : checksum b ≠ strtoul8 (b.drop 148) % 2 ^ 32
    · rw [if_pos hc]
      simpa using hc
    · rw [if_neg hc]
      constructor
      · intro h
        exact absurd h (by simp)
      · intro h
        exact absurd h hc
  · intro cbs h0 rfd tr block hlen hbad
    rw [process_one_block cbs h0 rfd _ tr block hlen (by simp),
      iterOnce_header_block cbs h0 rfd tr block hlen]
    simp only [hbad]

/-- Witness for C3 at a concrete block whose checksum field stores "1"
while the computed checksum is 256. -/
theorem checksum_validation_witness :
    (badBlk.length = 512 ∧
      checksum badBlk =
        (badBlk.take 148 ++ List.replicate 8 32 ++ badBlk.drop 156).sum % 2 ^ 32) ∧
    (badBlk.getD 148 0 ≠ 0 ∧
      (raw_to_header badBlk = .badChecksum ↔
        checksum badBlk ≠ strtoul8 (badBlk.drop 148) % 2 ^ 32)) ∧
    tarStrEx_process_data cbs0 ⟨[], 0, 512, 0, .tar_header, hdr0⟩ [] badBlk =
      (⟨badBlk, 512, 0, 0, .tar_error, hdr0⟩, [], -2) :=
  ⟨⟨by decide, checksum_validation.1 badBlk (by decide)⟩,
   ⟨by decide, checksum_validation.2.1 badBlk (by decide)⟩,
   checksum_validation.2.2 cbs0 hdr0 0 [] badBlk (by decide) (by decide)⟩

/-- C7: Null-record absorption.  (1) A block whose checksum field starts
with NUL decodes to a null record.  (2) Feeding such a 512-byte block to
an engine awaiting a header resets the block cursor, invokes no callback,
leaves the whole engine state unchanged and returns 0.  (3) Any number of
consecutive all-zero blocks is absorbed with no observable effect. -/
theorem null_record_absorption :
    (∀ b : List Nat, b.getD 148 0 = 0 → raw_to_header b = .nullRecord) ∧
    (∀ (cbs : Callbacks) (h0 : Header) (rfd : Nat) (tr : List Event)
      (block : List Nat), block.length = 512 → block.getD 148 0 = 0 →
      tarStrEx_process_data cbs ⟨[], 0, 512, rfd, .tar_header, h0⟩ tr block =
        (⟨[], 0, 512, rfd, .tar_header, h0⟩, tr, 0)) ∧
    (∀ (cbs : Callbacks) (h0 : Header) (rfd : Nat) (tr : List Event) (n : Nat),
      tarStrEx_process_data cbs ⟨[], 0, 512, rfd, .tar_header, h0⟩ tr
          (List.replicate (512 * n) 0) =
        (⟨[], 0, 512, rfd, .tar_header, h0⟩, tr, 0)) := by
  have hnull : ∀ b : List Nat, b.getD 148 0 = 0 → raw_to_header b = .nullRecord := by
    intro b h
    simp only [raw_to_header, checksumOff]
    rw [if_pos h]
  have hone : ∀ (cbs : Callbacks) (h0 : Header) (rfd : Nat) (tr : List Event)
      (block rest : List Nat), block.length = 512 → block.getD 148 0 = 0 →
      tarStrEx_process_data cbs ⟨[], 0, 512, rfd, .tar_header, h0⟩ tr
          (block ++ rest) =
        tarStrEx_process_data cbs ⟨[], 0, 512, rfd, .tar_header, h0⟩ tr rest := by
    intro cbs h0 rfd tr block rest hlen hz
    rw [process_block_step cbs h0 rfd _ tr block rest hlen (by simp),
      iterOnce_header_block cbs h0 rfd tr block hlen]
    simp only [hnull block hz]
  refine ⟨hnull, ?_, ?_⟩
  · intro cbs h0 rfd tr block hlen hz
    have h := hone cbs h0 rfd tr block [] hlen hz
    rw [List.append_nil] at h
    rw [h, process_nil]
  · intro cbs h0 rfd tr n
    induction n with
    | zero =>
      simp only [Nat.mul_zero, List.replicate_zero]
      exact process_nil cbs _ tr
    | succ k ih =>
      have hsplit : List.replicate (512 * (k + 1)) (0 : Nat) =
          List.replicate 512 0 ++ List.replicate (512 * k) 0 := by
        rw [← List.replicate_add]
        congr 1
        ring
      have hz : (List.replicate 512 (0 : Nat)).getD 148 0 = 0 := by
        simp [List.getD_eq_getElem?_getD, List.getElem?_replicate]
      rw [hsplit, hone cbs h0 rfd tr _ _ (by simp) hz, ih]

/-- Witness for C7 at the all-zero block and two consecutive zero
blocks. -/
theorem null_record_absorption_witness :
    raw_to_header (List.replicate 512 0) = .nullRecord ∧
    tarStrEx_process_data cbs0 ⟨[], 0, 512, 0, .tar_header, hdr0⟩ []
        (List.replicate 512 0) =
      (⟨[], 0, 512, 0, .tar_header, hdr0⟩, [], 0) ∧
    tarStrEx_process_data cbs0 ⟨[], 0, 512, 0, .tar_header, hdr0⟩ []
        (List.replicate (512 * 2) 0) =
      (⟨[], 0, 512, 0, .tar_header, hdr0⟩, [], 0) :=
  ⟨null_record_absorption.1 (List.replicate 512 0) (by decide),
   null_record_absorption.2.1 cbs0 hdr0 0 [] (List.replicate 512 0)
     (by decide) (by decide),
   null_record_absorption.2.2 cbs0 hdr0 0 [] 2⟩

/-! ### Payload delivery (claim C2) -/

/-- Fuel-indexed splitting of a payload into consecutive 512-byte
fragments (the last fragment may be shorter); fuel `≥ p.length` always
suffices. -/
def chunk512Aux : Nat → List Nat → List (List Nat)
  | 0, p => [p]
  | f + 1, p =>
    if p.length ≤ 512 then [p] else p.take 512 :: chunk512Aux f (p.drop 512)

/-- The consecutive `recvData` fragment payloads the engine delivers for
a file whose payload is `p`: full 512-byte blocks followed by the final
(possibly shorter) fragment. -/
def chunk512 (p : List Nat) : List (List Nat) := chunk512Aux p.length p

/-- The callback events the engine emits while consuming the payload `p`
of an accepted regular file: one `recvData` per fragment, then exactly
one `fileFinalize` immediately after the fragment that completes the
file. -/
def fileEvents (p : List Nat) : List Event :=
  (chunk512 p).map Event.evRecvData ++ [Event.evFileFinalize]

/-- Number of zero-padding bytes rounding a payload of `S` bytes up to a
whole number of 512-byte blocks. -/
def padOf (S : Nat) : Nat := (512 - S % 512) % 512

theorem chunk512Aux_congr : ∀ f1 f2 (p : List Nat), p.length ≤ f1 →
    p.length ≤ f2 → chunk512Aux f1 p = chunk512Aux f2 p := by
  intro f1
  induction f1 with
  | zero =>
    intro f2 p h1 _
    have hp : p = [] := List.length_eq_zero.mp (Nat.le_zero.mp h1)
    subst hp
    cases f2 <;> simp [chunk512Aux]
  | succ n ih =>
    intro f2 p h1 h2
    match f2 with
    | 0 =>
      have hp : p = [] := List.length_eq_zero.mp (Nat.le_zero.mp h2)
      subst hp
      simp [chunk512Aux]
    | m + 1 =>
      simp only [chunk512Aux]
      by_cases h5 : p.length ≤ 512
      · simp [h5]
      · simp only [h5, if_false]
        rw [ih m (p.drop 512) (by rw [List.length_drop]; omega)
          (by rw [List.length_drop]; omega)]

theorem chunk512_eq_single (p : List Nat) (h5 : p.length ≤ 512)
    (h1 : 1 ≤ p.length) : chunk512 p = [p] := by
  show chunk512Aux p.length p = [p]
  obtain ⟨g, hg⟩ : ∃ g, p.length = g + 1 := ⟨p.length - 1, by omega⟩
  rw [hg]
  simp only [chunk512Aux]
  rw [if_pos h5]

theorem chunk512_step (p : List Nat) (h5 : 512 < p.length) :
    chunk512 p = p.take 512 :: chunk512 (p.drop 512) := by
  show chunk512Aux p.length p = p.take 512 :: chunk512Aux (p.drop 512).length (p.drop 512)
  obtain ⟨g, hg⟩ : ∃ g, p.length = g + 1 := ⟨p.length - 1, by omega⟩
  rw [hg]
  simp only [chunk512Aux]
  rw [if_neg (by omega)]
  rw [chunk512Aux_congr g (p.drop 512).length (p.drop 512)
    (by rw [List.length_drop]; omega) le_rfl]

theorem chunk512_flatten (p : List Nat) : (chunk512 p).flatten = p := by
  suffices H : ∀ n (p : List Nat), p.length ≤ n → (chunk512 p).flatten = p from
    H p.length p le_rfl
  intro n
  induction n with
  | zero =>
    intro p hp
    have h : p = [] := List.length_eq_zero.mp (Nat.le_zero.mp hp)
    subst h
    simp [chunk512, chunk512Aux]
  | succ n ih =>
    intro p hp
    by_cases h5 : p.length ≤ 512
    · by_cases h0 : p.length = 0
      · have h : p = [] := List.length_eq_zero.mp h0
        subst h
        simp [chunk512, chunk512Aux]
      · rw [chunk512_eq_single p h5 (by omega)]
        simp
    · rw [chunk512_step p (by omega), List.flatten_cons,
        ih (p.drop 512) (by rw [List.length_drop]; omega)]
      exact List.take_append_drop 512 p

theorem fileEvents_count_fin (p : List Nat) :
    (fileEvents p).count Event.evFileFinalize = 1 := by
  unfold fileEvents
  rw [List.count_append]
  have h : ((chunk512 p).map Event.evRecvData).count Event.evFileFinalize = 0 := by
    rw [List.count_eq_zero]
    intro hmem
    obtain ⟨x, -, hx⟩ := List.mem_map.mp hmem
    exact Event.noConfusion hx
  rw [h]
  simp

theorem fileEvents_step (p : List Nat) (h5 : 512 < p.length) :
    fileEvents p = Event.evRecvData (p.take 512) :: fileEvents (p.drop 512) := by
  rw [fileEvents, chunk512_step p h5, List.map_cons, fileEvents]
  simp

/-- The full-block iteration in the `tar_fileData` state when the file
completes inside this block (code lines 307-335): the final fragment of
`S` payload bytes is delivered, then `fileFinalize`; since the block is
exactly full, the cursor resets and the state returns to `tar_header`. -/
theorem iterOnce_fileData_last (cbs : Callbacks) (hd : Header) (S : Nat)
    (tr : List Event) (u : List Nat) (hlen : u.length = 512)
    (hS1 : 1 ≤ S) (hS2 : S ≤ 512) :
    iterOnce cbs ⟨[], 0, 512, S, .tar_fileData, hd⟩ tr u =
      (if cbs tr (Event.evRecvData (u.take S)) ≠ 0 then
        .ret ⟨u, 512, 0, 0, .tar_error, hd⟩
          (tr ++ [Event.evRecvData (u.take S)] ++ [Event.evFileFinalize]) (-1)
      else
        .cont ⟨[], 0, 512, 0, .tar_header, hd⟩
          (tr ++ [Event.evRecvData (u.take S)] ++ [Event.evFileFinalize])) := by
  simp only [iterOnce, List.nil_append]
  rw [if_pos (show S - min S u.length = 0 by omega)]
  rw [show 0 + u.length - (u.length - min S u.length) = S by omega]
  rw [if_pos (show 512 - u.length = 0 by omega)]
  simp [hlen, show S - min S 512 = 0 by omega]

/-- The full-block iteration in the `tar_fileData` state when more than a
block of payload remains (code lines 336-348): the full 512-byte block is
delivered and the engine stays in `tar_fileData` with the cursor reset. -/
theorem iterOnce_fileData_full (cbs : Callbacks) (hd : Header) (S : Nat)
    (tr : List Event) (u : List Nat) (hlen : u.length = 512)
    (hS : 512 < S) :
    iterOnce cbs ⟨[], 0, 512, S, .tar_fileData, hd⟩ tr u =
      (if cbs tr (Event.evRecvData u) ≠ 0 then
        .ret ⟨u, 512, 0, S - 512, .tar_error, hd⟩
          (tr ++ [Event.evRecvData u]) (-1)
      else
        .cont ⟨[], 0, 512, S - 512, .tar_fileData, hd⟩
          (tr ++ [Event.evRecvData u])) := by
  simp only [iterOnce, List.nil_append]
  rw [if_neg (show ¬(S - min S u.length = 0) by omega)]
  rw [if_pos (show 512 - u.length = 0 by omega)]
  simp [hlen, show min S 512 = 512 by omega]

/-- Delivery of one whole file payload: from the state right after a
regular-file header of size `p.length ≥ 1` was accepted, processing the
payload followed by its block padding emits exactly `fileEvents p` and
returns the engine to a fresh `tar_header` state. -/
theorem fileDelivery (cbs : Callbacks) (hcb : ∀ t e, cbs t e = 0) :
    ∀ (p pad : List Nat) (hd : Header) (tr : List Event),
      1 ≤ p.length → pad.length = padOf p.length →
      tarStrEx_process_data cbs ⟨[], 0, 512, p.length, .tar_fileData, hd⟩ tr
          (p ++ pad) =
        (⟨[], 0, 512, 0, .tar_header, hd⟩, tr ++ fileEvents p, 0) := by
  suffices H : ∀ n (p : List Nat), p.length ≤ n → ∀ (pad : List Nat) hd tr,
      1 ≤ p.length → pad.length = padOf p.length →
      tarStrEx_process_data cbs ⟨[], 0, 512, p.length, .tar_fileData, hd⟩ tr
          (p ++ pad) =
        (⟨[], 0, 512, 0, .tar_header, hd⟩, tr ++ fileEvents p, 0) from
    fun p pad hd tr h1 h2 => H p.length p le_rfl pad hd tr h1 h2
  intro n
  induction n with
  | zero =>
    intro p hp pad hd tr h1 _
    exact absurd h1 (by omega)
  | succ n ih =>
    intro p hp pad hd tr h1 hpad
    by_cases h5 : p.length ≤ 512
    · have hu : (p ++ pad).length = 512 := by
        simp only [List.length_append, hpad, padOf]
        omega
      rw [process_one_block cbs hd p.length .tar_fileData tr (p ++ pad) hu
          (by simp),
        iterOnce_fileData_last cbs hd p.length tr (p ++ pad) hu h1 h5,
        List.take_left, if_neg (by simp [hcb])]
      rw [fileEvents, chunk512_eq_single p h5 h1]
      simp [List.append_assoc]
    · have hsplit : p ++ pad = p.take 512 ++ (p.drop 512 ++ pad) := by
        rw [← List.append_assoc, List.take_append_drop]
      have hlen512 : (p.take 512).length = 512 := by
        rw [List.length_take]; omega
      rw [hsplit,
        process_block_step cbs hd p.length .tar_fileData tr (p.take 512)
          (p.drop 512 ++ pad) hlen512 (by simp),
        iterOnce_fileData_full cbs hd p.length tr (p.take 512) hlen512
          (by omega),
        if_neg (by simp [hcb])]
      dsimp only
      have hr512 : p.length - 512 = (p.drop 512).length := by
        rw [List.length_drop]
      rw [hr512]
      rw [ih (p.drop 512) (by rw [List.length_drop]; omega) pad hd
        (tr ++ [Event.evRecvData (p.take 512)])
        (by rw [List.length_drop]; omega)
        (by
          rw [List.length_drop]
          simp only [padOf] at hpad ⊢
          omega)]
      rw [fileEvents_step p (by omega)]
      simp [List.append_assoc]

/-- C2: Round-trip accounting.  From a state awaiting a header, feeding a
checksum-valid regular-file header declaring size `S = p.length ≥ 1`
followed by the `S` payload bytes and their block padding (with callbacks
that accept) invokes `fileInit`, then delivers the payload in consecutive
in-order `recvData` fragments given by `chunk512 p` — so the fragments
concatenate to `p` and their lengths sum to exactly `S` — and invokes
`fileFinalize` exactly once, immediately after the fragment that
completes `S`. -/
theorem round_trip_accounting (cbs : Callbacks) (hcb : ∀ t e, cbs t e = 0)
    (h0 h : Header) (rfd0 : Nat) (tr : List Event) (block p pad : List Nat)
    (hlen : block.length = 512) (hdec : raw_to_header block = .ok h)
    (htype : h.type = 48) (hsize : h.size = p.length)
    (hp : 1 ≤ p.length) (hpad : pad.length = padOf p.length) :
    tarStrEx_process_data cbs ⟨[], 0, 512, rfd0, .tar_header, h0⟩ tr
        (block ++ (p ++ pad)) =
      (⟨[], 0, 512, 0, .tar_header, h⟩,
       tr ++ Event.evFileInit h.name :: fileEvents p, 0) ∧
    (chunk512 p).flatten = p ∧
    ((chunk512 p).map List.length).sum = p.length ∧
    (fileEvents p).count Event.evFileFinalize = 1 := by
  refine ⟨?_, chunk512_flatten p, ?_, fileEvents_count_fin p⟩
  · rw [process_block_step cbs h0 rfd0 _ tr block (p ++ pad) hlen (by simp),
      iterOnce_header_block cbs h0 rfd0 tr block hlen]
    simp only [hdec]
    rw [if_pos htype,
      if_neg (show ¬(cbs tr (Event.evFileInit h.name) ≠ 0) by simp [hcb])]
    dsimp only
    rw [hsize, fileDelivery cbs hcb p pad h (tr ++ [Event.evFileInit h.name]) hp hpad]
    simp [List.append_assoc]
  · rw [← List.length_flatten, chunk512_flatten p]

/-- Witness for C2 at a concrete size-1 regular file. -/
theorem round_trip_accounting_witness :
    (raw_to_header hdrReg1 = .ok ⟨[97], 1, 48⟩ ∧
     (⟨[97], 1, 48⟩ : Header).size = ([65] : List Nat).length ∧
     (List.replicate 511 (0 : Nat)).length = padOf ([65] : List Nat).length) ∧
    tarStrEx_process_data cbs0 ⟨[], 0, 512, 0, .tar_header, hdr0⟩ []
        (hdrReg1 ++ ([65] ++ List.replicate 511 0)) =
      (⟨[], 0, 512, 0, .tar_header, ⟨[97], 1, 48⟩⟩,
       [] ++ Event.evFileInit [97] :: fileEvents [65], 0) ∧
    (chunk512 [65]).flatten = [65] ∧
    ((chunk512 [65]).map List.length).sum = ([65] : List Nat).length ∧
    (fileEvents [65]).count Event.evFileFinalize = 1 :=
  ⟨⟨by decide, by decide, by decide⟩,
   round_trip_accounting cbs0 (fun _ _ => rfl) hdr0 ⟨[97], 1, 48⟩ 0 []
     hdrReg1 [65] (List.replicate 511 0) (by decide) (by decide) (by decide)
     (by decide) (by decide) (by decide)⟩

/-- C4 (amended): callback failure is fatal for `fileInit`, `dirCreate`
and `recvData`.  If the trace of a `tarStrEx_process_data` call contains
a non-`fileFinalize` callback invocation whose result was non-zero, the
call returns a non-zero code, the engine is left in the error state, and
every later call with non-empty input fails fast.  The `fileFinalize`
result, by contrast, is ignored by `tarStrEx_process_data` (line 317),
and `tarStrEx_finalize` reports Failure on a non-zero `fileFinalize`
result but does not move the engine to the error state. -/
theorem callback_failure_amended (cbs : Callbacks) (st : TarState)
    (tr : List Event) (data : List Nat) (hInv : Inv st)
    (hdirty : ∃ i, tr.length ≤ i ∧
      i < (tarStrEx_process_data cbs st tr data).2.1.length ∧
      (tarStrEx_process_data cbs st tr data).2.1.getD i .evFileFinalize ≠
        .evFileFinalize ∧
      cbs ((tarStrEx_process_data cbs st tr data).2.1.take i)
        ((tarStrEx_process_data cbs st tr data).2.1.getD i .evFileFinalize) ≠ 0) :
    (tarStrEx_process_data cbs st tr data).2.2 ≠ 0 ∧
    (tarStrEx_process_data cbs st tr data).1.status = .tar_error ∧
    (∀ (d2 : List Nat) (t2 : List Event), d2 ≠ [] →
      tarStrEx_process_data cbs (tarStrEx_process_data cbs st tr data).1 t2 d2 =
        ((tarStrEx_process_data cbs st tr data).1, t2, -1)) ∧
    (∀ (s : TarState) (t2 : List Event), s.status = .tar_fileData →
      cbs t2 .evFileFinalize ≠ 0 →
      tarStrEx_finalize cbs s t2 = (s, t2 ++ [Event.evFileFinalize], -1)) := by
  obtain ⟨-, -, hclean, herr⟩ := process_ok cbs data st tr hInv
  have hcode : (tarStrEx_process_data cbs st tr data).2.2 ≠ 0 := by
    intro h0
    obtain ⟨i, hi1, hi2, hi3, hi4⟩ := hdirty
    exact hi4 (hclean h0 i hi1 hi2 hi3)
  have hst := herr hcode
  refine ⟨hcode, hst, ?_, ?_⟩
  · intro d2 t2 hd2
    rw [process_eq, if_neg hd2, if_pos hst]
  · intro s t2 hfd hnz
    unfold tarStrEx_finalize
    rw [if_pos hfd, if_pos hnz]

/-- Counterexample to C4 as stated: with callbacks whose `fileFinalize`
returns 1 (and all others 0), a complete one-file archive is processed
with `fileFinalize` invoked and failing, yet the call returns 0 (Success)
and the engine ends in `tar_header`, not `tar_error` — the engine ignores
the `fileFinalize` result at line 317. -/
theorem callback_failure_cex :
    (tarStrEx_process_data cbsFinFail (tarStrEx_init hdr0) []
        (hdrReg1 ++ [65] ++ List.replicate 511 0)).2.1 =
      [Event.evFileInit [97], Event.evRecvData [65], Event.evFileFinalize] ∧
    cbsFinFail [Event.evFileInit [97], Event.evRecvData [65]]
        Event.evFileFinalize = 1 ∧
    (tarStrEx_process_data cbsFinFail (tarStrEx_init hdr0) []
        (hdrReg1 ++ [65] ++ List.replicate 511 0)).2.2 = 0 ∧
    (tarStrEx_process_data cbsFinFail (tarStrEx_init hdr0) []
        (hdrReg1 ++ [65] ++ List.replicate 511 0)).1.status =
      TarStatus.tar_header := by
  refine ⟨by decide, by decide, by decide, by decide⟩

/-- Witness for the amended C4: a failing `fileInit` on a regular-file
header aborts the call with a non-zero code and the error state. -/
theorem callback_failure_amended_witness :
    (tarStrEx_process_data cbsInitFail (tarStrEx_init hdr0) [] hdrReg1).2.2 ≠ 0 ∧
    (tarStrEx_process_data cbsInitFail (tarStrEx_init hdr0) [] hdrReg1).1.status =
      TarStatus.tar_error :=
  (fun h => ⟨h.1, h.2.1⟩)
    (callback_failure_amended cbsInitFail (tarStrEx_init hdr0) [] hdrReg1
      (Inv_init hdr0) ⟨0, by decide, by decide, by decide, by decide⟩)

/-- C6 is a code bug: after a size-0 regular-file header, the engine
emits a zero-length `recvData` call (the claim demands zero `onData`
calls), and it then swallows the following 512-byte block as file
padding: here a valid directory header follows the size-0 file header,
yet no `dirCreate` event is ever emitted, and the engine ends up back in
`tar_header` having consumed both blocks. -/
theorem zero_length_file_bug :
    (tarStrEx_process_data cbs0 (tarStrEx_init hdr0) []
        (hdrReg0 ++ hdrDirB)).2.1 =
      [Event.evFileInit [97], Event.evRecvData [], Event.evFileFinalize] ∧
    (∀ nm, Event.evDirCreate nm ∉
      (tarStrEx_process_data cbs0 (tarStrEx_init hdr0) []
        (hdrReg0 ++ hdrDirB)).2.1) ∧
    (tarStrEx_process_data cbs0 (tarStrEx_init hdr0) []
        (hdrReg0 ++ hdrDirB)).2.2 = 0 ∧
    (tarStrEx_process_data cbs0 (tarStrEx_init hdr0) []
        (hdrReg0 ++ hdrDirB)).1.status = TarStatus.tar_header := by
  have htr : (tarStrEx_process_data cbs0 (tarStrEx_init hdr0) []
      (hdrReg0 ++ hdrDirB)).2.1 =
      [Event.evFileInit [97], Event.evRecvData [], Event.evFileFinalize] := by
    decide
  refine ⟨htr, ?_, by decide, by decide⟩
  intro nm hmem
  rw [htr] at hmem
  simp at hmem

/-- C9 is a code bug: on a checksum-valid header whose 100-byte name
field contains no NUL, the `strcpy` of line 178 keeps copying past the
name field (here through the 7 non-NUL mode bytes, 107 bytes in all plus
the terminating NUL), reading beyond the 100-byte source field and
writing beyond the 100-byte destination field. -/
theorem name_copy_overrun :
    100 < (strcpyName hdrOverrun).length ∧
    raw_to_header hdrOverrun = .ok ⟨strcpyName hdrOverrun, 0, 48⟩ ∧
    (strcpyName hdrOverrun).length = 107 := by
  refine ⟨by decide, by decide, by decide⟩

end TarSpec
